import Mathlib

/-!
Shallow embedding of the `duat-hop` plugin (src/src/lib.rs).

The plugin locates matches in the visible text, labels them with one- or
two-letter key sequences (`key_seqs`), overlays the labels, and resolves
keystrokes to a match (`Hopper::send_key`).  Positions are byte offsets into
the text; the text itself is modelled as a list of characters, with
`Char.utf8Size` giving each character's encoded byte width.
-/

/-- The fixed label alphabet, `static LETTERS: &str = "abcdefghijklmnopqrstuvwxyz"`. -/
def LETTERS : List Char :=
  ['a', 'b', 'c', 'd', 'e', 'f', 'g', 'h', 'i', 'j', 'k', 'l', 'm',
   'n', 'o', 'p', 'q', 'r', 's', 't', 'u', 'v', 'w', 'x', 'y', 'z']

/-- The label generator `fn key_seqs(len: usize) -> Vec<String>`:
`double = len / LETTERS.len()`; one-letter labels are the letters with the
first `double` skipped, then two-letter labels are the product of the first
`double` letters with the whole alphabet.  Labels are lists of characters. -/
def key_seqs (len : Nat) : List (List Char) :=
  let double := len / LETTERS.length
  ((LETTERS.drop double).map (fun c => [c]))
    ++ ((LETTERS.take double).flatMap (fun c1 => LETTERS.map (fun c2 => [c1, c2])))

/-- Boolean test that `p` is a prefix of `l` (Rust `l.starts_with(p)`). -/
def isPrefixB : List Char → List Char → Bool
  | [], _ => true
  | _ :: _, [] => false
  | a :: as, b :: bs => a == b && isPrefixB as bs

/-- State of one hopping session, as far as the claims are concerned.
`ranges` and `seq` are the `Hopper` fields; `overlays` records, for each
(label, range) pair produced by zipping `key_seqs` with `ranges`, whether its
paired ghost+conceal overlay is still installed; `cloak` is the backdrop tag;
`moves` lists every `move_to` performed on the main selection, in order;
`exited` records that `mode::reset` has been requested; `errors` counts
`context::error!` reports. -/
structure HopState where
  ranges : List (Nat × Nat)
  seq : List Char
  overlays : List Bool
  cloak : Bool
  moves : List (Nat × Nat)
  exited : Bool
  errors : Nat
deriving DecidableEq

/-- Mode entry `Hopper::on_switch`: fresh accumulator, backdrop installed,
and one paired ghost+conceal overlay per `(label, range)` pair of
`key_seqs(ranges.len()).iter().zip(&self.ranges)` (so `min` of the lengths). -/
def onSwitch (ranges : List (Nat × Nat)) : HopState :=
  { ranges := ranges
    seq := []
    overlays := List.replicate (min (key_seqs ranges.length).length ranges.length) true
    cloak := true
    moves := []
    exited := false
    errors := 0 }

/-- One call of `Hopper::send_key`.  `none` models a key event that is not
`KeyCode::Char(c)`: report an error and reset the mode.  For a character
`c`: push it onto the accumulator, then for every `(label, range)` pair, if
the label equals the accumulator move the main selection to the range and
reset; if the label merely starts with the accumulator keep its overlay;
otherwise (including the equality case, which does not `continue`) remove
its overlay.  Finally reset if the accumulator has two characters or `c` is
not in `LETTERS`. -/
def sendKey (st : HopState) (k : Option Char) : HopState :=
  match k with
  | none => { st with errors := st.errors + 1, exited := true }
  | some c =>
    let seq := st.seq ++ [c]
    let seqs := key_seqs st.ranges.length
    let hits := ((seqs.zip st.ranges).filter (fun p => p.1 == seq)).map Prod.snd
    { st with
      seq := seq
      overlays :=
        List.zipWith (fun b lab => b && (isPrefixB seq lab && !(lab == seq)))
          st.overlays seqs
      moves := st.moves ++ hits
      exited := st.exited || !hits.isEmpty || (seq.length == 2) || !(decide (c ∈ LETTERS)) }

/-- Mode exit `Hopper::before_exit`: remove every tag of both taggers, so all
per-match overlays and the backdrop are gone. -/
def beforeExit (st : HopState) : HopState :=
  { st with overlays := st.overlays.map (fun _ => false), cloak := false }

/-- One keystroke as delivered by the host: nothing reaches an exited mode;
otherwise run `send_key` and, if it requested a reset, run `before_exit`. -/
def step (st : HopState) (k : Option Char) : HopState :=
  if st.exited then st
  else
    let st1 := sendKey st k
    if st1.exited then beforeExit st1 else st1

/-- Byte offset of the `m`-th character of `text` (sum of the UTF-8 widths of
the first `m` characters). -/
def bytePos (text : List Char) (m : Nat) : Nat :=
  ((text.take m).map Char.utf8Size).sum

/-- Character found at byte offset `n` of `text` (`text.char_at(n)`). -/
def charAt : List Char → Nat → Option Char
  | [], _ => none
  | c :: cs, n =>
    if n = 0 then some c
    else if n < c.utf8Size then none
    else charAt cs (n - c.utf8Size)

/-- The characters of `text` from byte offset `n` on (`text[n..].chars()`). -/
def charsFrom : List Char → Nat → List Char
  | [], _ => []
  | c :: cs, n => if n = 0 then c :: cs else charsFrom cs (n - c.utf8Size)

/-- Conceal-end computation of `Hopper::on_switch` for a match
`[rstart, rend)` labelled with `labLen` characters: if the match is one byte
long and the character at `rend` is a newline, conceal only the match;
otherwise advance `rstart` by the byte widths of the first `labLen`
characters starting there. -/
def seqEnd (text : List Char) (rstart rend labLen : Nat) : Nat :=
  if rend = rstart + 1 ∧ charAt text rend = some '\n' then rend
  else rstart + (((charsFrom text rstart).take labLen).map Char.utf8Size).sum

example : (key_seqs 77).length = 76 := by decide
example : (key_seqs 3).length = 26 := by decide
example : (key_seqs 26).length = 51 := by decide

/-! ### Basic facts about the alphabet and the label generator -/

theorem letters_nodup : LETTERS.Nodup := by decide

theorem letters_length : LETTERS.length = 26 := by decide

theorem key_seqs_prefix_eq {n : Nat} {a b : List Char}
    (ha : a ∈ key_seqs n) (hb : b ∈ key_seqs n) (hab : a <+: b) : a = b := by
  have hd : List.Disjoint (LETTERS.take (n / LETTERS.length))
      (LETTERS.drop (n / LETTERS.length)) :=
    List.disjoint_take_drop letters_nodup (le_refl _)
  simp only [key_seqs, List.mem_append, List.mem_map, List.mem_flatMap] at ha hb
  rcases ha with ⟨c, hc, rfl⟩ | ⟨c1, h1, c2, h2, rfl⟩
  · rcases hb with ⟨c', hc', rfl⟩ | ⟨c1', h1', c2', h2', rfl⟩
    · rw [List.cons_prefix_cons] at hab
      rw [hab.1]
    · rw [List.cons_prefix_cons] at hab
      obtain ⟨rfl, -⟩ := hab
      exact (hd h1' hc).elim
  · rcases hb with ⟨c', hc', rfl⟩ | ⟨c1', h1', c2', h2', rfl⟩
    · have h2 := hab.length_le
      simp at h2
    · rw [List.cons_prefix_cons, List.cons_prefix_cons] at hab
      obtain ⟨rfl, rfl, -⟩ := hab
      rfl

theorem key_seqs_nodup (n : Nat) : (key_seqs n).Nodup := by
  have hone : ((LETTERS.drop (n / LETTERS.length)).map (fun c => [c])).Nodup :=
    (letters_nodup.sublist (List.drop_sublist _ _)).map
      (fun a b h => by injection h)
  have htwo : ((LETTERS.take (n / LETTERS.length)).flatMap
      (fun c1 => LETTERS.map (fun c2 => [c1, c2]))).Nodup := by
    rw [List.nodup_flatMap]
    refine ⟨fun c1 _ => letters_nodup.map (fun a b h => by simpa using h), ?_⟩
    refine (letters_nodup.sublist (List.take_sublist _ _)).imp ?_
    intro c1 c1' hne
    intro x hx hx'
    simp only [List.mem_map] at hx hx'
    obtain ⟨y, -, rfl⟩ := hx
    obtain ⟨y', -, h⟩ := hx'
    injection h with h1 _
    exact hne h1.symm
  refine List.Nodup.append hone htwo ?_
  intro x hx hx'
  simp only [List.mem_map] at hx
  simp only [List.mem_flatMap, List.mem_map] at hx'
  obtain ⟨c, -, rfl⟩ := hx
  obtain ⟨c1, -, c2, -, h⟩ := hx'
  simp at h

theorem key_seqs_pairwise_free (n : Nat) :
    (key_seqs n).Pairwise (fun a b => a ≠ b ∧ ¬ a <+: b ∧ ¬ b <+: a) := by
  rw [List.pairwise_iff_getElem]
  intro i j hi hj hij
  have hmi : (key_seqs n)[i] ∈ key_seqs n := List.getElem_mem hi
  have hmj : (key_seqs n)[j] ∈ key_seqs n := List.getElem_mem hj
  have hne : (key_seqs n)[i] ≠ (key_seqs n)[j] :=
    (List.pairwise_iff_getElem.mp (key_seqs_nodup n)) i j hi hj hij
  exact ⟨hne, fun h => hne (key_seqs_prefix_eq hmi hmj h),
    fun h => hne (key_seqs_prefix_eq hmj hmi h).symm⟩

theorem key_seqs_chars {n : Nat} {a : List Char} (ha : a ∈ key_seqs n) :
    (∀ c ∈ a, c ∈ LETTERS) ∧ (a.length = 1 ∨ a.length = 2) := by
  simp only [key_seqs, List.mem_append, List.mem_map, List.mem_flatMap] at ha
  rcases ha with ⟨c, hc, rfl⟩ | ⟨c1, h1, c2, h2, rfl⟩
  · refine ⟨?_, Or.inl rfl⟩
    intro x hx
    rw [List.mem_singleton] at hx
    subst hx
    exact List.mem_of_mem_drop hc
  · refine ⟨?_, Or.inr rfl⟩
    intro x hx
    rcases List.mem_cons.mp hx with rfl | hx
    · exact List.mem_of_mem_take h1
    · rcases List.mem_cons.mp hx with rfl | hx
      · exact h2
      · simp at hx

theorem isPrefixB_iff : ∀ (p l : List Char), isPrefixB p l = true ↔ p <+: l
  | [], l => by
      simp only [isPrefixB, true_iff]
      exact ⟨l, rfl⟩
  | a :: as, [] => by
      simp only [isPrefixB, Bool.false_eq_true, false_iff]
      intro h
      simpa using h.length_le
  | a :: as, b :: bs => by
      simp [isPrefixB, isPrefixB_iff as bs, List.cons_prefix_cons]

theorem filter_zip_eq_of_nodup {α β : Type} [BEq α] [LawfulBEq α] :
    ∀ (l : List α) (r : List β) (i : Nat) (hi : i < l.length) (_hir : i < r.length),
      l.Nodup →
      ((l.zip r).filter (fun p => p.1 == l[i])).map Prod.snd = [r[i]]
  | [], _, i, hi, _, _ => by simp at hi
  | _ :: _, [], i, _, hir, _ => by simp at hir
  | a :: l, b :: r, 0, _, _, hnd => by
      have hal : a ∉ l := (List.nodup_cons.mp hnd).1
      have hrest : ((l.zip r).filter (fun p => p.1 == a)) = [] := by
        rw [List.filter_eq_nil_iff]
        intro p hp
        have h1 : p.1 ∈ l := (List.of_mem_zip hp).1
        simp only [beq_iff_eq]
        intro h
        exact hal (h ▸ h1)
      simp [List.zip_cons_cons, List.filter_cons, hrest]
  | a :: l, b :: r, i + 1, hi, hir, hnd => by
      have hil : i < l.length := by simpa using hi
      have hirr : i < r.length := by simpa using hir
      have hal : a ∉ l := (List.nodup_cons.mp hnd).1
      have hane : ¬ ((a, b).1 == l[i]) = true := by
        simp only [beq_iff_eq]
        intro h
        exact hal (h.symm ▸ List.getElem_mem hil)
      simp only [List.zip_cons_cons, List.getElem_cons_succ, List.filter_cons]
      rw [if_neg hane]
      exact filter_zip_eq_of_nodup l r i hil hirr (List.nodup_cons.mp hnd).2

theorem key_seqs_length (n : Nat) :
    (key_seqs n).length
      = (26 - n / 26) + min (n / 26) 26 * 26 := by
  have hc : ∀ (l : List Char),
      (l.map (List.length ∘ fun c1 => List.map (fun c2 => [c1, c2]) LETTERS)).sum
        = l.length * 26 := by
    intro l
    induction l with
    | nil => simp
    | cons a l ih =>
        simp only [List.map_cons, List.sum_cons, ih, Function.comp_apply,
          List.length_map, letters_length, List.length_cons]
        ring
  simp only [key_seqs, letters_length, List.length_append, List.length_map,
    List.length_drop, List.flatMap, List.length_flatten, List.map_map]
  rw [hc, List.length_take, letters_length]

/-! ### Byte positions and the conceal-end computation -/

theorem charsFrom_bytePos : ∀ (text : List Char) (m : Nat),
    charsFrom text (bytePos text m) = text.drop m
  | [], m => by simp [charsFrom, bytePos]
  | c :: cs, 0 => by simp [charsFrom, bytePos]
  | c :: cs, m + 1 => by
      have hpos := c.utf8Size_pos
      show charsFrom (c :: cs) ((((c :: cs).take (m + 1)).map Char.utf8Size).sum) = _
      rw [List.take_succ_cons, List.map_cons, List.sum_cons]
      simp only [charsFrom]
      rw [if_neg (by omega), Nat.add_sub_cancel_left, List.drop_succ_cons]
      exact charsFrom_bytePos cs m

theorem bytePos_add (text : List Char) (m L : Nat) :
    bytePos text m + (((text.drop m).take L).map Char.utf8Size).sum
      = bytePos text (m + L) := by
  rw [bytePos, bytePos, List.take_add, List.map_append, List.sum_append]

/-! ### Field-level description of one `send_key` call -/

theorem sendKey_none (st : HopState) :
    sendKey st none = { st with errors := st.errors + 1, exited := true } := rfl

theorem sendKey_char_seq (st : HopState) (c : Char) :
    (sendKey st (some c)).seq = st.seq ++ [c] := rfl

theorem sendKey_char_ranges (st : HopState) (c : Char) :
    (sendKey st (some c)).ranges = st.ranges := rfl

theorem sendKey_char_errors (st : HopState) (c : Char) :
    (sendKey st (some c)).errors = st.errors := rfl

theorem sendKey_char_cloak (st : HopState) (c : Char) :
    (sendKey st (some c)).cloak = st.cloak := rfl

theorem sendKey_char_moves (st : HopState) (c : Char) :
    (sendKey st (some c)).moves
      = st.moves ++ (((key_seqs st.ranges.length).zip st.ranges).filter
          (fun p => p.1 == st.seq ++ [c])).map Prod.snd := rfl

theorem sendKey_char_overlays (st : HopState) (c : Char) :
    (sendKey st (some c)).overlays
      = List.zipWith
          (fun b lab => b && (isPrefixB (st.seq ++ [c]) lab && !(lab == st.seq ++ [c])))
          st.overlays (key_seqs st.ranges.length) := rfl

theorem sendKey_char_exited (st : HopState) (c : Char) :
    (sendKey st (some c)).exited
      = (st.exited
          || !((((key_seqs st.ranges.length).zip st.ranges).filter
                (fun p => p.1 == st.seq ++ [c])).map Prod.snd).isEmpty
          || ((st.seq ++ [c]).length == 2)
          || !(decide (c ∈ LETTERS))) := rfl

theorem beforeExit_moves (st : HopState) : (beforeExit st).moves = st.moves := rfl

theorem beforeExit_exited (st : HopState) : (beforeExit st).exited = st.exited := rfl

theorem beforeExit_errors (st : HopState) : (beforeExit st).errors = st.errors := rfl

theorem beforeExit_seq (st : HopState) : (beforeExit st).seq = st.seq := rfl

theorem step_of_exited (st : HopState) (k : Option Char) (h : st.exited = true) :
    step st k = st := by
  simp [step, h]

theorem step_of_live (st : HopState) (k : Option Char) (h : st.exited = false) :
    step st k
      = if (sendKey st k).exited then beforeExit (sendKey st k) else sendKey st k := by
  simp [step, h]

/-! ### Forced exit and the two-keystroke bound -/

theorem sendKey_force_exit (st : HopState) (c : Char)
    (h : (sendKey st (some c)).seq.length = 2 ∨ c ∉ LETTERS) :
    (sendKey st (some c)).exited = true := by
  rw [sendKey_char_exited]
  rcases h with h | h
  · rw [sendKey_char_seq] at h
    simp [h]
  · simp [h]

theorem step_exits_on_second (st : HopState) (k1 k2 : Option Char)
    (hseq : st.seq = []) : (step (step st k1) k2).exited = true := by
  by_cases h0 : st.exited = true
  · rw [step_of_exited st k1 h0, step_of_exited st k2 h0]
    exact h0
  · have h0' : st.exited = false := by simpa using h0
    match k1 with
    | none =>
        have h1 : (sendKey st none).exited = true := rfl
        rw [step_of_live st none h0', if_pos h1]
        have h2 : (beforeExit (sendKey st none)).exited = true := by
          rw [beforeExit_exited]
          exact h1
        rw [step_of_exited _ k2 h2]
        exact h2
    | some c =>
        by_cases he : (sendKey st (some c)).exited = true
        · rw [step_of_live st _ h0', if_pos he]
          have h2 : (beforeExit (sendKey st (some c))).exited = true := by
            rw [beforeExit_exited]
            exact he
          rw [step_of_exited _ k2 h2]
          exact h2
        · have he' : (sendKey st (some c)).exited = false := by simpa using he
          rw [step_of_live st _ h0', if_neg he]
          have hseq1 : (sendKey st (some c)).seq = [c] := by
            rw [sendKey_char_seq, hseq]
            rfl
          match k2 with
          | none =>
              have h2 : (sendKey (sendKey st (some c)) none).exited = true := rfl
              rw [step_of_live _ none he', if_pos h2, beforeExit_exited]
              exact h2
          | some c2 =>
              have h2 : (sendKey (sendKey st (some c)) (some c2)).exited = true := by
                refine sendKey_force_exit _ c2 (Or.inl ?_)
                rw [sendKey_char_seq, hseq1]
                rfl
              rw [step_of_live _ _ he', if_pos h2, beforeExit_exited]
              exact h2

/-! ### Claim theorems: label generator -/

/-- C1 (code bug): the spec requires `(A - double) + double*A >= n` for all
`n >= 0`, i.e. that `key_seqs n` always yields at least `n` labels.  At
`n = 77` the code computes `double = 2` and produces only
`(26 - 2) + 2 * 26 = 76 < 77` labels, so with 77 matches on screen the last
match can never be labelled or selected. -/
theorem key_seqs_short_at_77 :
    (key_seqs 77).length = (26 - 77 / 26) + (77 / 26) * 26 ∧
    (key_seqs 77).length < 77 := by
  constructor
  · decide
  · decide

/-- C2: for every `n`, the labels produced by `key_seqs n` are pairwise
distinct and pairwise prefix-free: no label is a (proper) prefix of another
label of the same list. -/
theorem key_seqs_distinct_and_free (n : Nat) :
    (key_seqs n).Pairwise (fun a b => a ≠ b ∧ ¬ a <+: b ∧ ¬ b <+: a) :=
  key_seqs_pairwise_free n

/-- C7 counterexample: at `n = 26` the code computes `double = 1`, so the
label list contains the two-letter label `aa` and has 51 entries; it is not
the 26 one-letter labels. -/
theorem key_seqs_26_has_two_letter :
    (['a', 'a'] : List Char) ∈ key_seqs 26 ∧ (key_seqs 26).length = 51 := by
  constructor
  · decide
  · decide

/-- C7 amended: for every `n ≤ 25` (rather than `n = 26`), `key_seqs n` is
exactly the 26 one-letter labels, covering the alphabet once in order; the
all-one-letter regime ends at `n = 25`, since `double = n / 26` becomes 1 at
`n = 26`. -/
theorem key_seqs_all_one_letter_below_26 (n : Nat) (h : n ≤ 25) :
    key_seqs n = LETTERS.map (fun c => [c]) := by
  have hd : n / LETTERS.length = 0 := by
    rw [letters_length]
    exact Nat.div_eq_of_lt (by omega)
  simp [key_seqs, hd]

theorem key_seqs_all_one_letter_below_26_witness :
    25 ≤ 25 ∧ key_seqs 25 = LETTERS.map (fun c => [c]) :=
  ⟨le_refl 25, key_seqs_all_one_letter_below_26 25 (le_refl 25)⟩

/-- C10: `key_seqs` never produces more than 676 labels, and from `n = 676`
on it always produces exactly the full 26 × 26 cartesian product of
two-letter labels, independent of `n`. -/
theorem key_seqs_capacity (n : Nat) :
    (key_seqs n).length ≤ 676 ∧
      (676 ≤ n →
        key_seqs n = LETTERS.flatMap (fun c1 => LETTERS.map (fun c2 => [c1, c2]))) := by
  constructor
  · rw [key_seqs_length]
    rcases Nat.le_total (n / 26) 26 with h | h
    · rw [min_eq_left h]
      omega
    · rw [min_eq_right h]
      omega
  · intro h
    have hd : 26 ≤ n / 26 := by
      rw [Nat.le_div_iff_mul_le (by norm_num)]
      omega
    simp only [key_seqs, letters_length]
    rw [List.drop_eq_nil_of_le (by rw [letters_length]; exact hd),
        List.take_of_length_le (by rw [letters_length]; exact hd)]
    simp

theorem key_seqs_capacity_witness :
    (key_seqs 700).length ≤ 676 ∧
      key_seqs 700 = LETTERS.flatMap (fun c1 => LETTERS.map (fun c2 => [c1, c2])) :=
  ⟨(key_seqs_capacity 700).1, (key_seqs_capacity 700).2 (by norm_num)⟩

/-- C9 (code bug): with 77 matches the generator yields 76 labels and
`on_switch` just zips, silently installing overlays for (and labelling) only
the first 76 matches: no abort and no log/error is produced, contradicting
the propagation policy that a short label list must be an unrecoverable
internal fault. -/
theorem on_switch_truncates_at_77 :
    ((List.range 77).map (fun j => (2 * j, 2 * j + 1))).length = 77 ∧
    (key_seqs ((List.range 77).map (fun j => (2 * j, 2 * j + 1))).length).length = 76 ∧
    (onSwitch ((List.range 77).map (fun j => (2 * j, 2 * j + 1)))).overlays.length = 76 ∧
    (onSwitch ((List.range 77).map (fun j => (2 * j, 2 * j + 1)))).errors = 0 ∧
    (onSwitch ((List.range 77).map (fun j => (2 * j, 2 * j + 1)))).exited = false := by
  refine ⟨by decide, by decide, by decide, by decide, by decide⟩

/-! ### Claim theorems: session termination and invalid input -/

/-- C5: after processing the candidates for a keystroke, if the accumulator
has reached length 2 or the typed character is not in the 26-letter
alphabet, the mode is force-exited regardless of resolution; consequently a
session started with an empty accumulator is exited after at most two
keystrokes, whatever they are. -/
theorem session_two_key_bound :
    (∀ (st : HopState) (c : Char),
        ((sendKey st (some c)).seq.length = 2 ∨ c ∉ LETTERS) →
        (sendKey st (some c)).exited = true) ∧
    (∀ (st : HopState) (k1 k2 : Option Char), st.seq = [] →
        (step (step st k1) k2).exited = true) :=
  ⟨fun st c h => sendKey_force_exit st c h,
   fun st k1 k2 h => step_exits_on_second st k1 k2 h⟩

theorem session_two_key_bound_witness :
    (step (step (onSwitch [(0, 1), (2, 3)]) (some 'a')) (some 'b')).exited = true :=
  session_two_key_bound.2 (onSwitch [(0, 1), (2, 3)]) (some 'a') (some 'b') rfl

/-- C6 counterexample: the claim says every keystroke that is not a plain
alphabetic character reports an input error.  The digit key `'1'` is not in
the alphabet, yet it goes down the `KeyCode::Char` path of `send_key`, which
reports nothing: after the keystroke the error count is still 0 (the session
does exit, but silently). -/
theorem nonalpha_char_reports_no_error :
    ('1' ∉ LETTERS) ∧ (step (onSwitch [(0, 1)]) (some '1')).errors = 0 := by
  constructor
  · decide
  · decide

/-- C6 amended: a key event that is not a character key aborts the session
with an error report, mode exit and full overlay teardown (labels, conceals
and backdrop); a character key outside the 26-letter alphabet also aborts
the session with mode exit and full teardown, but without reporting an
error. -/
theorem invalid_key_aborts (st : HopState) (h : st.exited = false) :
    ((step st none).errors = st.errors + 1 ∧ (step st none).exited = true ∧
      (∀ b ∈ (step st none).overlays, b = false) ∧ (step st none).cloak = false) ∧
    (∀ c : Char, c ∉ LETTERS →
      ((step st (some c)).errors = st.errors ∧ (step st (some c)).exited = true ∧
        (∀ b ∈ (step st (some c)).overlays, b = false) ∧
        (step st (some c)).cloak = false)) := by
  constructor
  · have hnone : (sendKey st none).exited = true := rfl
    have hstep : step st none = beforeExit (sendKey st none) := by
      rw [step_of_live st none h, if_pos hnone]
    rw [hstep]
    refine ⟨rfl, by rw [beforeExit_exited]; exact hnone, ?_, rfl⟩
    intro b hb
    simp only [beforeExit, List.mem_map] at hb
    obtain ⟨x, -, hb⟩ := hb
    exact hb.symm
  · intro c hc
    have hex : (sendKey st (some c)).exited = true := by
      rw [sendKey_char_exited]
      simp [hc]
    have hstep : step st (some c) = beforeExit (sendKey st (some c)) := by
      rw [step_of_live st _ h, if_pos hex]
    rw [hstep]
    refine ⟨by rw [beforeExit_errors, sendKey_char_errors],
      by rw [beforeExit_exited]; exact hex, ?_, rfl⟩
    intro b hb
    simp only [beforeExit, List.mem_map] at hb
    obtain ⟨x, -, hb⟩ := hb
    exact hb.symm

theorem invalid_key_aborts_witness :
    (step (onSwitch [(0, 1)]) none).errors = 1 ∧
    (step (onSwitch [(0, 1)]) (some '!')).exited = true :=
  ⟨(invalid_key_aborts (onSwitch [(0, 1)]) rfl).1.1,
   ((invalid_key_aborts (onSwitch [(0, 1)]) rfl).2 '!' (by decide)).2.1⟩

/-! ### Claim theorems: conceal-end computation -/

/-- C8: for a match starting at the byte offset of the `m`-th character, if
the match is one position long and the character right after it is a
newline, the concealed span ends at the match end; otherwise it ends at the
start advanced by exactly `L` characters of the underlying text (the byte
offset of character `m + L`), so the concealment covers as many source
characters as the label has glyphs regardless of their encoded widths. -/
theorem seq_end_spec (text : List Char) (m L rend : Nat) :
    ((rend = bytePos text m + 1 ∧ charAt text rend = some '\n') →
        seqEnd text (bytePos text m) rend L = rend) ∧
    (¬(rend = bytePos text m + 1 ∧ charAt text rend = some '\n') →
        seqEnd text (bytePos text m) rend L = bytePos text (m + L)) := by
  constructor
  · intro h
    rw [seqEnd, if_pos h]
  · intro h
    rw [seqEnd, if_neg h, charsFrom_bytePos, bytePos_add]

theorem seq_end_spec_witness :
    (¬((3 : Nat) = bytePos ['é', 'x'] 0 + 1 ∧ charAt ['é', 'x'] 3 = some '\n') ∧
      seqEnd ['é', 'x'] (bytePos ['é', 'x'] 0) 3 1 = bytePos ['é', 'x'] (0 + 1)) ∧
    (((1 : Nat) = bytePos ['a', '\n'] 0 + 1 ∧ charAt ['a', '\n'] 1 = some '\n') ∧
      seqEnd ['a', '\n'] (bytePos ['a', '\n'] 0) 1 2 = 1) :=
  ⟨⟨by decide, (seq_end_spec ['é', 'x'] 0 1 3).2 (by decide)⟩,
   ⟨by decide, (seq_end_spec ['a', '\n'] 0 2 1).1 (by decide)⟩⟩

/-! ### Claim theorem: round-trip resolution -/

/-- C3: with `k` matches on screen, typing the characters of the `i`-th
generated label one keystroke at a time moves the primary selection to match
`i` and to no other match (the complete list of `move_to` calls is exactly
`[ranges[i]]`), and the mode is exited. -/
theorem hop_roundtrip (ranges : List (Nat × Nat)) (i : Nat)
    (hi : i < (key_seqs ranges.length).length) (hir : i < ranges.length) :
    (((key_seqs ranges.length)[i]).foldl (fun st c => step st (some c))
        (onSwitch ranges)).moves = [ranges[i]] ∧
    (((key_seqs ranges.length)[i]).foldl (fun st c => step st (some c))
        (onSwitch ranges)).exited = true := by
  have hmem : (key_seqs ranges.length)[i] ∈ key_seqs ranges.length :=
    List.getElem_mem hi
  obtain ⟨hin, hlen⟩ := key_seqs_chars hmem
  have hfilter0 := filter_zip_eq_of_nodup (key_seqs ranges.length) ranges i hi hir
    (key_seqs_nodup ranges.length)
  rcases hlen with hlen | hlen
  · obtain ⟨c, hc⟩ := List.length_eq_one.mp hlen
    rw [hc] at hfilter0 ⊢
    simp only [List.foldl_cons, List.foldl_nil]
    have hmoves : (sendKey (onSwitch ranges) (some c)).moves = [ranges[i]] := by
      have he : (sendKey (onSwitch ranges) (some c)).moves
          = [] ++ (((key_seqs ranges.length).zip ranges).filter
              (fun p => p.1 == [c])).map Prod.snd := rfl
      rw [he, List.nil_append, hfilter0]
    have hexit : (sendKey (onSwitch ranges) (some c)).exited = true := by
      have he : (sendKey (onSwitch ranges) (some c)).exited
          = (false || !((((key_seqs ranges.length).zip ranges).filter
              (fun p => p.1 == [c])).map Prod.snd).isEmpty
              || (([c] : List Char).length == 2) || !(decide (c ∈ LETTERS))) := rfl
      rw [he, hfilter0]
      rfl
    rw [step_of_live (onSwitch ranges) (some c) rfl, if_pos hexit]
    exact ⟨by rw [beforeExit_moves]; exact hmoves,
      by rw [beforeExit_exited]; exact hexit⟩
  · obtain ⟨c1, c2, hc⟩ := List.length_eq_two.mp hlen
    have hc1 : c1 ∈ LETTERS := hin c1 (by rw [hc]; exact List.mem_cons_self _ _)
    rw [hc] at hfilter0 ⊢
    simp only [List.foldl_cons, List.foldl_nil]
    have hnohit : (((key_seqs ranges.length).zip ranges).filter
        (fun p => p.1 == [c1])).map Prod.snd = [] := by
      have hf : ((key_seqs ranges.length).zip ranges).filter
          (fun p => p.1 == [c1]) = [] := by
        rw [List.filter_eq_nil_iff]
        intro p hp
        have hp1 : p.1 ∈ key_seqs ranges.length := (List.of_mem_zip hp).1
        simp only [beq_iff_eq]
        intro heq
        have hpre : p.1 <+: (key_seqs ranges.length)[i] := by
          rw [heq, hc]
          exact ⟨[c2], rfl⟩
        have hpe := key_seqs_prefix_eq hp1 hmem hpre
        rw [heq, hc] at hpe
        simp at hpe
      rw [hf]
      rfl
    have hexit1 : (sendKey (onSwitch ranges) (some c1)).exited = false := by
      have he : (sendKey (onSwitch ranges) (some c1)).exited
          = (false || !((((key_seqs ranges.length).zip ranges).filter
              (fun p => p.1 == [c1])).map Prod.snd).isEmpty
              || (([c1] : List Char).length == 2) || !(decide (c1 ∈ LETTERS))) := rfl
      rw [he, hnohit]
      simp [hc1]
    have hseq1 : (sendKey (onSwitch ranges) (some c1)).seq = [c1] := rfl
    have hranges1 : (sendKey (onSwitch ranges) (some c1)).ranges = ranges := rfl
    have hmoves1 : (sendKey (onSwitch ranges) (some c1)).moves = [] := by
      have he : (sendKey (onSwitch ranges) (some c1)).moves
          = [] ++ (((key_seqs ranges.length).zip ranges).filter
              (fun p => p.1 == [c1])).map Prod.snd := rfl
      rw [he, List.nil_append, hnohit]
    have hmoves2 : (sendKey (sendKey (onSwitch ranges) (some c1)) (some c2)).moves
        = [ranges[i]] := by
      rw [sendKey_char_moves, hmoves1, hseq1, hranges1, List.nil_append]
      simp only [List.cons_append, List.nil_append]
      exact hfilter0
    have hexit2 : (sendKey (sendKey (onSwitch ranges) (some c1)) (some c2)).exited
        = true := by
      rw [sendKey_char_exited, hseq1, hranges1]
      simp only [List.cons_append, List.nil_append]
      rw [hfilter0, hexit1]
      rfl
    rw [step_of_live (onSwitch ranges) (some c1) rfl,
      if_neg (by rw [hexit1]; exact Bool.false_ne_true)]
    rw [step_of_live (sendKey (onSwitch ranges) (some c1)) (some c2) hexit1,
      if_pos hexit2]
    exact ⟨by rw [beforeExit_moves]; exact hmoves2,
      by rw [beforeExit_exited]; exact hexit2⟩

theorem hop_roundtrip_witness :
    ((['c'] : List Char).foldl (fun st c => step st (some c))
        (onSwitch [(0, 3), (4, 7), (8, 11)])).moves = [(8, 11)] ∧
    ((['c'] : List Char).foldl (fun st c => step st (some c))
        (onSwitch [(0, 3), (4, 7), (8, 11)])).exited = true :=
  hop_roundtrip [(0, 3), (4, 7), (8, 11)] 2 (by decide) (by decide)

/-! ### Claim theorem: candidate-set invariant -/

theorem foldl_step_invariant (ranges : List (Nat × Nat)) (ks : List (Option Char)) :
    (ks.foldl step (onSwitch ranges)).exited = false →
    (ks.foldl step (onSwitch ranges)).ranges = ranges ∧
    (ks.foldl step (onSwitch ranges)).overlays.length
        = min (key_seqs ranges.length).length ranges.length ∧
    ∀ j, j < (ks.foldl step (onSwitch ranges)).overlays.length →
      (ks.foldl step (onSwitch ranges)).overlays.getD j false
        = isPrefixB (ks.foldl step (onSwitch ranges)).seq
            ((key_seqs ranges.length).getD j []) := by
  induction ks using List.reverseRecOn with
  | nil =>
      intro _
      refine ⟨rfl, by simp [onSwitch], ?_⟩
      intro j hj
      simp only [List.foldl_nil] at hj ⊢
      rw [List.getD_eq_getElem _ _ hj]
      show (List.replicate (min (key_seqs ranges.length).length ranges.length) true)[j]
        = _
      rw [List.getElem_replicate]
      rfl
  | append_singleton ks k ih =>
      intro hlive
      rw [List.foldl_append] at hlive ⊢
      simp only [List.foldl_cons, List.foldl_nil] at hlive ⊢
      set stP := List.foldl step (onSwitch ranges) ks with hstP
      by_cases hP : stP.exited = true
      · rw [step_of_exited _ _ hP, hP] at hlive
        exact absurd hlive (by simp)
      · have hP' : stP.exited = false := by simpa using hP
        obtain ⟨ihr, ihlen, ihel⟩ := ih hP'
        rw [step_of_live _ _ hP'] at hlive ⊢
        by_cases hE : (sendKey stP k).exited = true
        · rw [if_pos hE, beforeExit_exited, hE] at hlive
          exact absurd hlive (by simp)
        · have hE' : (sendKey stP k).exited = false := by simpa using hE
          rw [if_neg hE] at hlive ⊢
          rcases k with - | c
          · rw [sendKey_none] at hE'
            simp at hE'
          · refine ⟨?_, ?_, ?_⟩
            · rw [sendKey_char_ranges]
              exact ihr
            · rw [sendKey_char_overlays, List.length_zipWith, ihlen, ihr]
              omega
            · intro j hj
              have hzip : List.zipWith
                  (fun b lab => b && (isPrefixB (stP.seq ++ [c]) lab
                    && !(lab == stP.seq ++ [c])))
                  stP.overlays (key_seqs stP.ranges.length)
                = List.zipWith
                  (fun b lab => b && (isPrefixB (stP.seq ++ [c]) lab
                    && !(lab == stP.seq ++ [c])))
                  stP.overlays (key_seqs ranges.length) := by
                rw [ihr]
              rw [sendKey_char_overlays, hzip] at hj ⊢
              rw [sendKey_char_seq]
              rw [List.length_zipWith, ihlen] at hj
              have hjm : j < min (key_seqs ranges.length).length ranges.length := by
                omega
              have hjS : j < (key_seqs ranges.length).length := by omega
              have hjO : j < stP.overlays.length := by
                rw [ihlen]
                exact hjm
              have hjZ : j < (List.zipWith
                  (fun b lab => b && (isPrefixB (stP.seq ++ [c]) lab
                    && !(lab == stP.seq ++ [c])))
                  stP.overlays (key_seqs ranges.length)).length := by
                rw [List.length_zipWith, ihlen]
                omega
              rw [List.getD_eq_getElem _ _ hjZ]
              simp only [List.getElem_zipWith]
              rw [List.getD_eq_getElem _ _ hjS]
              have hel := ihel j hjO
              rw [List.getD_eq_getElem _ _ hjO, List.getD_eq_getElem _ _ hjS] at hel
              rw [hel]
              have hne : ((key_seqs ranges.length)[j] == stP.seq ++ [c]) = false := by
                rw [sendKey_char_exited] at hE'
                have hempty : ((((key_seqs stP.ranges.length).zip stP.ranges).filter
                    (fun p => p.1 == stP.seq ++ [c])).map Prod.snd).isEmpty = true := by
                  rcases Bool.or_eq_false_iff.mp hE' with ⟨h1, -⟩
                  rcases Bool.or_eq_false_iff.mp h1 with ⟨h2, -⟩
                  rcases Bool.or_eq_false_iff.mp h2 with ⟨-, h3⟩
                  simpa using h3
                have hfil : ((key_seqs stP.ranges.length).zip stP.ranges).filter
                    (fun p => p.1 == stP.seq ++ [c]) = [] :=
                  List.map_eq_nil_iff.mp (List.isEmpty_iff.mp hempty)
                rw [ihr] at hfil
                have hjz : j < ((key_seqs ranges.length).zip ranges).length := by
                  rw [List.length_zip]
                  omega
                have hzmem : ((key_seqs ranges.length)[j], ranges[j])
                    ∈ (key_seqs ranges.length).zip ranges := by
                  have hz := List.getElem_zip (h := hjz)
                  rw [← hz]
                  exact List.getElem_mem hjz
                have hnp := List.filter_eq_nil_iff.mp hfil _ hzmem
                simpa using hnp
              rw [hne]
              cases hpre : isPrefixB (stP.seq ++ [c]) (key_seqs ranges.length)[j] with
              | false => simp
              | true =>
                  have hP2 : isPrefixB stP.seq (key_seqs ranges.length)[j] = true := by
                    rw [isPrefixB_iff]
                    exact List.IsPrefix.trans ⟨[c], rfl⟩ ((isPrefixB_iff _ _).mp hpre)
                  rw [hP2]
                  simp

/-- C4: at every point during a live disambiguation session, the matches
whose paired ghost+conceal overlays are still installed are exactly those
whose assigned label has the typed accumulator as a prefix: after any key
sequence that has not exited the mode, overlay `j` is installed iff the
accumulator is a prefix of label `j` (so each keystroke retracts exactly the
candidates whose label does not start with the new accumulator and leaves
the others intact). -/
theorem candidate_set_invariant (ranges : List (Nat × Nat)) (ks : List (Option Char))
    (hlive : (ks.foldl step (onSwitch ranges)).exited = false) :
    (ks.foldl step (onSwitch ranges)).overlays.length
        = min (key_seqs ranges.length).length ranges.length ∧
    ∀ j, j < (ks.foldl step (onSwitch ranges)).overlays.length →
      (ks.foldl step (onSwitch ranges)).overlays.getD j false
        = isPrefixB (ks.foldl step (onSwitch ranges)).seq
            ((key_seqs ranges.length).getD j []) := by
  obtain ⟨-, h2, h3⟩ := foldl_step_invariant ranges ks hlive
  exact ⟨h2, h3⟩

theorem candidate_set_invariant_witness :
    (([some 'a'] : List (Option Char)).foldl step
        (onSwitch (List.replicate 30 ((0, 1) : Nat × Nat)))).exited = false ∧
    ((([some 'a'] : List (Option Char)).foldl step
        (onSwitch (List.replicate 30 ((0, 1) : Nat × Nat)))).overlays.length
        = min (key_seqs (List.replicate 30 ((0, 1) : Nat × Nat)).length).length
            (List.replicate 30 ((0, 1) : Nat × Nat)).length ∧
      ∀ j, j < (([some 'a'] : List (Option Char)).foldl step
          (onSwitch (List.replicate 30 ((0, 1) : Nat × Nat)))).overlays.length →
        (([some 'a'] : List (Option Char)).foldl step
            (onSwitch (List.replicate 30 ((0, 1) : Nat × Nat)))).overlays.getD j false
          = isPrefixB (([some 'a'] : List (Option Char)).foldl step
              (onSwitch (List.replicate 30 ((0, 1) : Nat × Nat)))).seq
              ((key_seqs (List.replicate 30 ((0, 1) : Nat × Nat)).length).getD j [])) :=
  ⟨by decide,
   candidate_set_invariant (List.replicate 30 ((0, 1) : Nat × Nat)) [some 'a']
     (by decide)⟩
